import Mathlib

/-!
# Verification of the Cerebro chunking / tidy pipeline

Shallow embedding of the text-processing core of the repository:

* `scripts/prepare_llamaindex_dataset.py` — `iter_blocks`, `build_chunks`
* `scripts/make_chunks_from_docs.py` — `split_into_chunks`, `_FigureHarvester`
* `scripts/tidy_chunks_inplace.py` — `clean_text`, `looks_like_orca_flat`,
  `reformat_orca_text`, `process_chunks`

Python strings are modelled as `List Char`.  Python whitespace (`str.strip`,
regex `\s`) is modelled by the six ASCII whitespace characters; the repository's
data stays within this set (Python additionally treats a few rare Unicode
characters as whitespace).  Integer slices such as `s[-k:]` keep Python's
semantics, including `s[-0:] = s`.
-/

namespace Cerebro

/-- Python `str` as a list of characters. -/
abbrev Str := List Char

/-- Shorthand to write character lists as string literals. -/
def toS (s : String) : Str := s.data

/-- The ASCII whitespace characters: Python's `\s` / `str.strip` class
restricted to ASCII (`' '`, `\t`, `\n`, `\r`, `\x0b`, `\x0c`). -/
def isPySpace (c : Char) : Bool :=
  c = ' ' || c = '\t' || c = '\n' || c = '\r' || c = '\u000B' || c = '\u000C'

/-- `s.lstrip()`. -/
def pyStripLeft (s : Str) : Str := s.dropWhile isPySpace

/-- `s.rstrip()`. -/
def pyStripRight (s : Str) : Str := (s.reverse.dropWhile isPySpace).reverse

/-- `s.strip()`. -/
def pyStrip (s : Str) : Str := pyStripRight (pyStripLeft s)

/-- Helper for `splitlines(keepends=True)` over `\n`. -/
def pySplitlinesKeepGo (cur : Str) : Str → List Str
  | [] => if cur = [] then [] else [cur.reverse]
  | c :: cs =>
      if c = '\n' then (cur.reverse ++ ['\n']) :: pySplitlinesKeepGo [] cs
      else pySplitlinesKeepGo (c :: cur) cs

/-- `s.splitlines(keepends=True)` (with `\n` as the line terminator). -/
def pySplitlinesKeep (s : Str) : List Str := pySplitlinesKeepGo [] s

/-- `s.splitlines()` (no kept ends). -/
def pySplitlines (s : Str) : List Str :=
  (pySplitlinesKeep s).map fun l => if l.getLast? = some '\n' then l.dropLast else l

/-- `s[-k:]` — note Python's `s[-0:]` is all of `s`. -/
def pySliceFromEnd (s : Str) (k : Nat) : Str :=
  if k = 0 then s else s.drop (s.length - k)

/-- Helper for `text.split("\n\n")`. -/
def pySplit2NlGo (cur : Str) : Str → List Str
  | '\n' :: '\n' :: rest => cur.reverse :: pySplit2NlGo [] rest
  | c :: cs => pySplit2NlGo (c :: cur) cs
  | [] => [cur.reverse]

/-- `text.split("\n\n")`. -/
def pySplit2Nl (s : Str) : List Str := pySplit2NlGo [] s

/-! ## `prepare_llamaindex_dataset.iter_blocks`

`HEADING_RE = re.compile(r"^(#{1,6})\s+(.*)$")`: the two groups, with the
regex's backtracking over the greedy `\s+` made explicit. -/

/-- `(.*)$` applied to the rest of the line: the group, or `none` when an
interior newline blocks the match. -/
def dollarGroup (rest : Str) : Option Str :=
  if rest.contains '\n' then
    if rest.getLast? = some '\n' && !(rest.dropLast.contains '\n') then some rest.dropLast
    else none
  else some rest

/-- Try `\s+(.*)$` on `t` with the whitespace run taking `k` characters,
longest first (regex greediness). -/
def headingRestGo (t : Str) : Nat → Option Str
  | 0 => none
  | k + 1 =>
      match dollarGroup (t.drop (k + 1)) with
      | some g => some g
      | none => headingRestGo t k

/-- `HEADING_RE.match(s)`: `some (level, group 2)` when the line is a heading. -/
def headingGroups (s : Str) : Option (Nat × Str) :=
  let r := (s.takeWhile (fun c => c = '#')).length
  if 1 ≤ r ∧ r ≤ 6 then
    let t := s.drop r
    (headingRestGo t (t.takeWhile isPySpace).length).map fun g => (r, g)
  else none

/-- `line.strip().startswith("```")`. -/
def isFenceLine (l : Str) : Bool := (toS "```").isPrefixOf (pyStrip l)

/-- The loop of `iter_blocks`: state is (current block's lines, offset,
block_start, in_code); yields `(block text, start offset)` pairs. -/
def iterBlocksGo : List Str → List Str → Nat → Nat → Bool → List (Str × Nat)
  | [], block, _, blockStart, _ =>
      if block = [] then [] else [(block.flatten, blockStart)]
  | l :: ls, block, offset, blockStart, inCode =>
      if isFenceLine l then
        if !inCode then
          (if block = [] then [] else [(block.flatten, blockStart)]) ++
            iterBlocksGo ls [l] (offset + l.length) offset true
        else
          ((block ++ [l]).flatten, blockStart) :: iterBlocksGo ls [] (offset + l.length) blockStart false
      else if inCode then
        iterBlocksGo ls (block ++ [l]) (offset + l.length) blockStart true
      else if pyStrip l = [] then
        (if block = [] then [] else [(block.flatten, blockStart)]) ++
          iterBlocksGo ls [] (offset + l.length) (offset + l.length) false
      else if (headingGroups l).isSome then
        (if block = [] then [] else [(block.flatten, blockStart)]) ++
          ((l, offset) :: iterBlocksGo ls [] (offset + l.length) (offset + l.length) false)
      else
        iterBlocksGo ls (block ++ [l]) (offset + l.length)
          (if block = [] then offset else blockStart) false

/-- `iter_blocks(md_text)`. -/
def iter_blocks (md : Str) : List (Str × Nat) :=
  iterBlocksGo (pySplitlinesKeep md) [] 0 0 false

/-! ## `prepare_llamaindex_dataset.build_chunks` -/

/-- A chunk as written to `chunks.jsonl` (the id string `orca_{i:05d}` is
determined by `chunk_index` and is not modelled separately). -/
structure Chunk where
  text : Str
  section_path : List Str
  offset_char : Nat
  chunk_index : Nat
deriving Repr, DecidableEq

/-- A chunk before the final `"".join(current).strip()`, instrumented with the
overlap seed its accumulation started from (`none` for the first chunk and for
chunks started by a heading split). -/
structure RawChunk where
  accum : Str
  seeded : Option Str
  secPath : List Str
  offChar : Nat
  chunkIndex : Nat
deriving Repr, DecidableEq

/-- `while section_stack and section_stack[-1][0] >= level: section_stack.pop()`. -/
def popWhileGE (lvl : Nat) : List (Nat × Str) → List (Nat × Str)
  | [] => []
  | x :: xs =>
      let r := popWhileGE lvl xs
      if r = [] then (if lvl ≤ x.1 then [] else [x]) else x :: r

/-- `section_path()`. -/
def pathOf (stack : List (Nat × Str)) : List Str := stack.map Prod.snd

/-- The mutable locals of `build_chunks`. -/
structure BState where
  current : List Str
  currentLen : Nat
  currentOffset : Nat
  chunkIdx : Nat
  stack : List (Nat × Str)
  seeded : Option Str

/-- The loop of `build_chunks` over the blocks of `iter_blocks`.  The float
test `current_len >= target_chars * 0.8` is modelled exactly by
`4 * T ≤ 5 * current_len` (for every integer within double precision the two
comparisons agree).  `max(0, start_off - len(overlap_text))` is truncated
`Nat` subtraction. -/
def buildGo (T O : Nat) : List (Str × Nat) → BState → List RawChunk
  | [], st =>
      if st.current = [] then []
      else [⟨st.current.flatten, st.seeded, pathOf st.stack, st.currentOffset, st.chunkIdx⟩]
  | (b, off) :: bs, st =>
      match headingGroups (pyStrip b) with
      | some (lvl, g2) =>
          let title := pyStrip g2
          let stack2 := popWhileGE lvl st.stack ++ [(lvl, title)]
          if 4 * T ≤ 5 * st.currentLen then
            ⟨st.current.flatten, st.seeded, pathOf stack2, st.currentOffset, st.chunkIdx⟩ ::
              buildGo T O bs ⟨[b], b.length, off, st.chunkIdx + 1, stack2, none⟩
          else
            let off2 := if st.current = [] then off else st.currentOffset
            buildGo T O bs ⟨st.current ++ [b], st.currentLen + b.length, off2, st.chunkIdx, stack2, st.seeded⟩
      | none =>
          let off0 := if st.current = [] then off else st.currentOffset
          if T < st.currentLen + b.length ∧ st.current ≠ [] then
            let tl := st.current.flatten
            let seed := pySliceFromEnd tl O
            ⟨tl, st.seeded, pathOf st.stack, off0, st.chunkIdx⟩ ::
              buildGo T O bs ⟨[seed, b], seed.length + b.length, off - seed.length, st.chunkIdx + 1, st.stack, some seed⟩
          else
            buildGo T O bs ⟨st.current ++ [b], st.currentLen + b.length, off0, st.chunkIdx, st.stack, st.seeded⟩

/-- The initial state of `build_chunks`. -/
def buildInit : BState := ⟨[], 0, 0, 0, [], none⟩

/-- `build_chunks` instrumented with each chunk's pre-strip text and seed. -/
def build_chunksRaw (md : Str) (T O : Nat) : List RawChunk :=
  buildGo T O (iter_blocks md) buildInit

/-- `build_chunks(md_text, target_chars, overlap_chars)`. -/
def build_chunks (md : Str) (T O : Nat) : List Chunk :=
  (build_chunksRaw md T O).map fun r => ⟨pyStrip r.accum, r.secPath, r.offChar, r.chunkIndex⟩

/-! ## `make_chunks_from_docs.split_into_chunks` -/

/-- `ChunkerCfg`. -/
structure ChunkerCfg where
  max_chars : Nat := 2500
  overlap : Nat := 400

/-- `[p.strip() for p in text.split("\n\n") if p.strip()]`. -/
def pyParas (text : Str) : List Str :=
  ((pySplit2Nl text).map pyStrip).filter (fun p => p ≠ [])

/-- `"\n\n".join(buf)`. -/
def sepJoin : List Str → Str
  | [] => []
  | [x] => x
  | x :: y :: t => x ++ toS "\n\n" ++ sepJoin (y :: t)

/-- `joined[-cfg.overlap:] if cfg.overlap < len(joined) else joined`. -/
def pyTailOf (joined : Str) (overlap : Nat) : Str :=
  if overlap < joined.length then pySliceFromEnd joined overlap else joined

/-- The loop of `split_into_chunks`, also returning the list of overlap tails
carried from each flushed chunk into the next buffer. -/
def splitChunksGo (cfg : ChunkerCfg) : List Str → List Str → Nat → List Str × List Str
  | [], buf, _ => (if buf = [] then [] else [sepJoin buf], [])
  | p :: ps, buf, cur =>
      if cur + p.length + 2 ≤ cfg.max_chars ∨ buf = [] then
        splitChunksGo cfg ps (buf ++ [p]) (cur + p.length + 2)
      else
        let joined := sepJoin buf
        let tl := pyTailOf joined cfg.overlap
        let r := splitChunksGo cfg ps [tl, p] (tl.length + 2 + p.length)
        (joined :: r.1, tl :: r.2)

/-- `split_into_chunks` instrumented with the carried overlap tails. -/
def split_into_chunksSeeds (text : Str) (cfg : ChunkerCfg) : List Str × List Str :=
  splitChunksGo cfg (pyParas text) [] 0

/-- `split_into_chunks(text, cfg)` (the generator, as a list). -/
def split_into_chunks (text : Str) (cfg : ChunkerCfg) : List Str :=
  (split_into_chunksSeeds text cfg).1

/-! ## `tidy_chunks_inplace`: artifact patterns and `REPLACEMENTS` -/

/-- Python's `\w` for ASCII: `[A-Za-z0-9_]`. -/
def isWordChar (c : Char) : Bool := c.isAlpha || c.isDigit || c = '_'

/-- Case-insensitive literal match at the start of `s`; `some rest` on success. -/
def matchLitCI : Str → Str → Option Str
  | [], s => some s
  | _ :: _, [] => none
  | l :: ls, c :: cs => if l.toLower = c.toLower then matchLitCI ls cs else none

/-- `^\s*<!--\s*WORD\s*-->\s*$` (case-insensitive), the shape of the first two
`ARTIFACT_LINE_PATTERNS`. -/
def artifactComment (word : Str) (ln : Str) : Bool :=
  match matchLitCI (toS "<!--") (ln.dropWhile isPySpace) with
  | none => false
  | some s2 =>
    match matchLitCI word (s2.dropWhile isPySpace) with
    | none => false
    | some s4 =>
      match matchLitCI (toS "-->") (s4.dropWhile isPySpace) with
      | none => false
      | some s6 => s6.dropWhile isPySpace = []

/-- `^(continues on next page|continued from previous page)\b.*$` (case-insensitive). -/
def artifactContinues (ln : Str) : Bool :=
  let after : Option Str :=
    match matchLitCI (toS "continues on next page") ln with
    | some rest => some rest
    | none => matchLitCI (toS "continued from previous page") ln
  match after with
  | none => false
  | some rest =>
      (match rest with
       | [] => true
       | c :: _ => !(isWordChar c)) && (dollarGroup rest).isSome

/-- A line matching one of `ARTIFACT_LINE_PATTERNS`. -/
def isArtifactLine (ln : Str) : Bool :=
  artifactComment (toS "image") ln || artifactComment (toS "formula-not-decoded") ln ||
    artifactContinues ln

/-- The character class of the first `REPLACEMENTS` pattern: open box `\u2423`,
arrows `\u21AA`/`\u2192`, zero-width space `\u200B`, no-break space `\u00A0`. -/
def isSpecialSym (c : Char) : Bool :=
  c = '\u2423' || c = '\u21AA' || c = '\u2192' || c = '\u200B' || c = '\u00A0'

/-- `re.sub(r"[class]+", " ", s)`: every maximal run of class characters
becomes one space. -/
def subRuns1Go (p : Char → Bool) (inRun : Bool) : Str → Str
  | [] => []
  | c :: cs =>
      if p c then
        if inRun then subRuns1Go p true cs else ' ' :: subRuns1Go p true cs
      else c :: subRuns1Go p false cs

/-- `re.sub(r"\s{2,}", " ", s)`: every maximal whitespace run of length at
least two becomes one space; single whitespace characters stay. -/
def subWs2Go (inRun : Bool) : Str → Str
  | [] => []
  | c :: cs =>
      if isPySpace c then
        if inRun then subWs2Go true cs
        else
          match cs with
          | [] => [c]
          | d :: _ => if isPySpace d then ' ' :: subWs2Go true cs else c :: subWs2Go false cs
      else c :: subWs2Go false cs

/-- The `REPLACEMENTS` loop: the two substitutions applied in order. -/
def applyReplacements (s : Str) : Str := subWs2Go false (subRuns1Go isSpecialSym false s)

/-! ## `tidy_chunks_inplace`: the ORCA heuristic -/

/-- Substring test (`pat in s`). -/
def strContains (pat : Str) : Str → Bool
  | [] => pat.isPrefixOf []
  | c :: cs => pat.isPrefixOf (c :: cs) || strContains pat cs

/-- `s.lower()`. -/
def lowerStr (s : Str) : Str := s.map Char.toLower

/-- `looks_like_orca_flat(s)`. -/
def looks_like_orca_flat (s : Str) : Bool :=
  let s0 := pyStrip s
  if s0 = [] then false
  else
    let hasBang := (toS "!").isPrefixOf s0
    let hasPct := s0.contains '%'
    let hasGeom := strContains (toS "* xyz") (lowerStr s0) || (toS "*xyz").isPrefixOf (lowerStr s0)
    let longSingleLine := !(s0.contains '\n') && decide (120 < s0.length)
    (hasBang || hasPct || hasGeom) && longSingleLine

/-- `\b` between a last matched character and the rest of the input. -/
def boundaryOk (lastC : Char) (rest : Str) : Bool :=
  match rest with
  | [] => isWordChar lastC
  | c :: _ => isWordChar lastC != isWordChar c

/-- A case-insensitive literal alternative of `ORCA_BREAK_REGEX` followed by
the pattern's trailing `\b`; returns the source characters matched. -/
def litAltB (lit : Str) (s : Str) : Option (Str × Str) :=
  match matchLitCI lit s with
  | none => none
  | some rest =>
      let g := s.take lit.length
      match g.getLast? with
      | none => none
      | some lc => if boundaryOk lc rest then some (g, rest) else none

/-- The class `[A-Za-z0-9\-]` of the `def2` alternatives. -/
def isDef2Char (c : Char) : Bool := c.isAlpha || c.isDigit || c = '-'

/-- Backtracking over the greedy `[A-Za-z0-9\-]+` of a `def2` alternative:
the longest prefix length `k ≥ 1` of `run` whose last character satisfies the
trailing `\b` against what follows. -/
def def2Bt (run : Str) (afterRun : Str) : Nat → Option Nat
  | 0 => none
  | k + 1 =>
      let part := run.take (k + 1)
      match part.getLast? with
      | none => none
      | some lc =>
          if boundaryOk lc (run.drop (k + 1) ++ afterRun) then some (k + 1)
          else def2Bt run afterRun k

/-- `def2\-[A-Za-z0-9\-]+\b` (or with `/`), case-insensitive. -/
def def2Alt (sep : Char) (s : Str) : Option (Str × Str) :=
  match matchLitCI (toS "def2" ++ [sep]) s with
  | none => none
  | some rest =>
      let run := rest.takeWhile isDef2Char
      let afterRun := rest.drop run.length
      match def2Bt run afterRun run.length with
      | none => none
      | some k => some (s.take 5 ++ run.take k, run.drop k ++ afterRun)

/-- `%[A-Za-z][A-Za-z0-9_]*` (its trailing `\b` always holds). -/
def pctAlt (s : Str) : Option (Str × Str) :=
  match s with
  | '%' :: c :: rest =>
      if c.isAlpha then
        let run := rest.takeWhile isWordChar
        some ('%' :: c :: run, rest.drop run.length)
      else none
  | _ => none

/-- `\*\s+xyz\b` (case-insensitive). -/
def starXyzAlt (s : Str) : Option (Str × Str) :=
  match s with
  | '*' :: rest =>
      let ws := rest.takeWhile isPySpace
      if ws = [] then none
      else
        let after := rest.drop ws.length
        match matchLitCI (toS "xyz") after with
        | none => none
        | some rest2 =>
            let g3 := after.take 3
            match g3.getLast? with
            | none => none
            | some lc =>
                if boundaryOk lc rest2 then some ('*' :: ws ++ g3, rest2) else none
  | _ => none

/-- `PAL\d*\b`, case-insensitive (also covers the redundant `PAL\b`
alternative: with a maximal digit run a failed boundary cannot be repaired by
a shorter run, every dropped digit being a word character). -/
def palAlt (s : Str) : Option (Str × Str) :=
  match matchLitCI (toS "PAL") s with
  | none => none
  | some rest =>
      let ds := rest.takeWhile Char.isDigit
      let g := s.take 3 ++ ds
      match g.getLast? with
      | none => none
      | some lc =>
          if boundaryOk lc (rest.drop ds.length) then some (g, rest.drop ds.length) else none

/-- The alternation of `ORCA_BREAK_REGEX` (with its trailing `\b`), tried in
the pattern's order; `NROOTS`/`nroots` and `DT0L`/`DTol` are case-insensitively
distinct literals tried in order. -/
def orcaAlts (s : Str) : Option (Str × Str) :=
  match pctAlt s with
  | some r => some r
  | none =>
  match litAltB (toS "end") s with
  | some r => some r
  | none =>
  match starXyzAlt s with
  | some r => some r
  | none =>
  match litAltB (toS "VeryTightSCF") s with
  | some r => some r
  | none =>
  match litAltB (toS "TightSCF") s with
  | some r => some r
  | none =>
  match litAltB (toS "RIJCOSX") s with
  | some r => some r
  | none =>
  match palAlt s with
  | some r => some r
  | none =>
  match def2Alt '-' s with
  | some r => some r
  | none =>
  match def2Alt '/' s with
  | some r => some r
  | none =>
  match litAltB (toS "NROOTS") s with
  | some r => some r
  | none =>
  match litAltB (toS "nroots") s with
  | some r => some r
  | none =>
  match litAltB (toS "DT0L") s with
  | some r => some r
  | none => litAltB (toS "DTol") s

/-- `ORCA_BREAK_REGEX.sub(lambda m: "\n" + m.group(1), s)`: scan left to
right; at a whitespace run try the alternation after it (the fuel is the
input length, each step consuming at least one character). -/
def orcaBreakSubGo : Nat → Str → Str
  | 0, s => s
  | _ + 1, [] => []
  | fuel + 1, c :: cs =>
      if isPySpace c then
        match orcaAlts ((c :: cs).dropWhile isPySpace) with
        | some (g, rest) => '\n' :: (g ++ orcaBreakSubGo fuel rest)
        | none => c :: orcaBreakSubGo fuel cs
      else c :: orcaBreakSubGo fuel cs

/-- `ORCA_BREAK_REGEX.sub(...)` in full. -/
def orcaBreakSub (s : Str) : Str := orcaBreakSubGo s.length s

/-- `s.replace(needle, repl)` (all occurrences, left to right). -/
def strReplaceGo (needle repl : Str) : Nat → Str → Str
  | 0, s => s
  | _ + 1, [] => []
  | fuel + 1, c :: cs =>
      if needle.isPrefixOf (c :: cs) then
        repl ++ strReplaceGo needle repl fuel ((c :: cs).drop needle.length)
      else c :: strReplaceGo needle repl fuel cs

/-- `s.replace(needle, repl)`. -/
def pyReplace (s needle repl : Str) : Str := strReplaceGo needle repl s.length s

/-- `re.sub(r"\s+end\b", "\nend", s, flags=re.I)` (the replacement is the
literal lowercase `\nend`). -/
def wsEndSubGo : Nat → Str → Str
  | 0, s => s
  | _ + 1, [] => []
  | fuel + 1, c :: cs =>
      if isPySpace c then
        match matchLitCI (toS "end") ((c :: cs).dropWhile isPySpace) with
        | some rest =>
            (match rest with
             | [] => '\n' :: (toS "end" ++ wsEndSubGo fuel [])
             | r :: rs =>
                 if isWordChar r then c :: wsEndSubGo fuel cs
                 else '\n' :: (toS "end" ++ wsEndSubGo fuel (r :: rs)))
        | none => c :: wsEndSubGo fuel cs
      else c :: wsEndSubGo fuel cs

/-- `re.sub(r"\s+end\b", "\nend", s, flags=re.I)`. -/
def wsEndSub (s : Str) : Str := wsEndSubGo s.length s

/-- `s.split("\n", 1)[0]`. -/
def splitFirstNl (s : Str) : Str := s.takeWhile (fun c => c ≠ '\n')

/-- `re.sub(r"^!(.+?)\s+", r"!\1\n", s, count=1)`: the lazy group is the text
from after `!` up to the first whitespace character, the greedy `\s+` is the
whole whitespace run there. -/
def bangApply (s : Str) : Str :=
  match s with
  | '!' :: c :: rest =>
      if c = '\n' then s
      else
        let pre := rest.takeWhile (fun d => !(isPySpace d))
        if pre.length = rest.length then s
        else '!' :: c :: (pre ++ '\n' :: ((rest.drop pre.length).dropWhile isPySpace))
  | _ => s

/-- `if s.startswith("!") and "\n" not in s.split("\n", 1)[0]: s = re.sub(...)`. -/
def bangBreak (s : Str) : Str :=
  if (toS "!").isPrefixOf s ∧ ¬ (strContains (toS "\n") (splitFirstNl s) = true) then bangApply s
  else s

/-- `re.sub(r"\n{3,}", "\n\n", s)`. -/
def nlCollapse : Str → Str
  | '\n' :: '\n' :: '\n' :: rest => nlCollapse ('\n' :: '\n' :: rest)
  | c :: cs => c :: nlCollapse cs
  | [] => []

/-- `reformat_orca_text(s)`. -/
def reformat_orca_text (s : Str) : Str :=
  let s1 := pyStrip s
  let s2 := orcaBreakSub s1
  let s3 := pyReplace s2 (toS " * xyz") (toS "\n* xyz")
  let s4 := wsEndSub s3
  let s5 := bangBreak s4
  let s6 := pyReplace s5 (toS " * ") (toS "\n* ")
  nlCollapse s6

/-- `clean_text(text)`. -/
def clean_text (text : Str) : Str :=
  let kept := (pySplitlines text).filter (fun ln => !(isArtifactLine ln))
  let s1 := List.intercalate (toS "\n") kept
  let s2 := applyReplacements s1
  let s3 := if looks_like_orca_flat s2 then reformat_orca_text s2 else s2
  pyStrip s3

/-! ## `tidy_chunks_inplace.process_chunks`

A line of the chunk file is modelled by what `json.loads` makes of it:
`none` for a line that raises (the `except` path), `some` record otherwise.
A record is its `"text"` field plus all other fields, kept opaque in `meta`. -/

/-- A parsed JSONL record: the `"text"` field and everything else. -/
structure RecJ (α : Type) where
  text : Str
  meta : α
deriving Repr, DecidableEq

/-- The read/clean/write loop of `process_chunks`: returns (records written,
`total`, `changed`). -/
def tidyLoop {α : Type} : List (Option (RecJ α)) → List (RecJ α) × Nat × Nat
  | [] => ([], 0, 0)
  | ln :: ls =>
      let r := tidyLoop ls
      match ln with
      | none => (r.1, r.2.1 + 1, r.2.2)
      | some r0 =>
          let cleaned := clean_text r0.text
          let r1 : RecJ α := if cleaned ≠ r0.text then ⟨cleaned, r0.meta⟩ else r0
          (r1 :: r.1, r.2.1 + 1, r.2.2 + (if cleaned ≠ r0.text then 1 else 0))

/-- `process_chunks`, from parsed lines to the rewritten file and counters. -/
def process_chunks {α : Type} (lines : List (Option (RecJ α))) : List (RecJ α) × Nat × Nat :=
  tidyLoop lines

/-! ## `make_chunks_from_docs._FigureHarvester`

The harvester is driven by `html.parser.HTMLParser`, which is standard
library; its callbacks are modelled over the parser's event stream
(start tags with attributes, end tags, character data; tag and attribute
names arrive lowercased). -/

/-- An `HTMLParser` callback event. -/
inductive HtmlEvent where
  | startTag (tag : Str) (attrs : List (Str × Str))
  | endTag (tag : Str)
  | dataText (s : Str)

/-- One harvested figure: `{"src": ..., "caption": ...}`. -/
structure FigItem where
  src : Option Str
  caption : Str
deriving Repr, DecidableEq

/-- The harvester's mutable fields. -/
structure FigState where
  inFigure : Bool := false
  inFigcaption : Bool := false
  currentSrc : Option Str := none
  currentCap : List Str := []
  items : List FigItem := []

/-- `_FigureHarvester.handle_starttag` (its four `if`s, in order, on the
updated state). -/
def figStart (st : FigState) (tag : Str) (attrs : List (Str × Str)) : FigState :=
  let st1 := if tag = toS "figure" then
      { st with inFigure := true, currentSrc := none, currentCap := [] } else st
  let st2 := if st1.inFigure ∧ tag = toS "img" then
      { st1 with currentSrc :=
          attrs.foldl (fun acc kv => if kv.1 = toS "src" then some kv.2 else acc) st1.currentSrc }
    else st1
  let st3 := if st2.inFigure ∧ tag = toS "figcaption" then
      { st2 with inFigcaption := true } else st2
  if st3.inFigure ∧ tag = toS "br" then
    { st3 with currentCap := st3.currentCap ++ [toS "\n"] } else st3

/-- `_FigureHarvester.handle_endtag`. -/
def figEnd (st : FigState) (tag : Str) : FigState :=
  let st1 := if tag = toS "figcaption" then { st with inFigcaption := false } else st
  if tag = toS "figure" then
    { st1 with
      items := st1.items ++ [⟨st1.currentSrc, pyStrip st1.currentCap.flatten⟩],
      inFigure := false, currentSrc := none, currentCap := [] }
  else st1

/-- `_FigureHarvester.handle_data`. -/
def figData (st : FigState) (s : Str) : FigState :=
  if st.inFigure ∧ st.inFigcaption then { st with currentCap := st.currentCap ++ [s] } else st

/-- Feed an event stream to the harvester. -/
def feedFigures (st : FigState) : List HtmlEvent → FigState
  | [] => st
  | .startTag t a :: evs => feedFigures (figStart st t a) evs
  | .endTag t :: evs => feedFigures (figEnd st t) evs
  | .dataText s :: evs => feedFigures (figData st s) evs

/-- Whether `harvest_figures` keeps an item: `it.get("caption") or
it.get("src")` — Python truthiness, an empty string and `None` being falsy. -/
def figKept (it : FigItem) : Bool :=
  !it.caption.isEmpty ||
    (match it.src with
     | some s => !s.isEmpty
     | none => false)

/-- `harvest_figures(html)` over the parser's event stream. -/
def harvest_figures (evs : List HtmlEvent) : List FigItem :=
  (feedFigures {} evs).items.filter figKept

/-! ## Concrete inputs used by counterexamples and witnesses -/

/-- Two paragraphs, 4 and 2 characters. -/
def exPlain : Str := toS "aaaa\n\nbb"

/-- Two blocks for the heading-aware chunker, the first ending in a newline. -/
def exBuildAB : Str := toS "ab\n\ncdef"

/-- Three blocks of lengths 7, 7 and 6 — none longer than 10. -/
def exBlocks2 : Str := toS "aaaaaa\n\nbbbbbb\n\ncccccc"

/-- The nested-heading document of the spec's heading-stack test. -/
def exHeadDoc : Str := toS "# A\n## B\nbbbb\n## C\ncccc\n# D\ndddd\n"

/-- A single 20-character paragraph (longer than a target of 10), then `yy`. -/
def exOversized : Str := List.replicate 20 'x' ++ toS "\n\nyy"

/-- An image artifact marker split across two lines. -/
def exTidy : Str := toS "<!-- image \n -->"

/-- The spec's ORCA example, padded past 120 characters with `Q`s. -/
def padQ : Str := toS "! B3LYP def2-SVP %scf MaxIter 200 end * xyz 0 1 " ++ List.replicate 80 'Q'

/-- What `reformat_orca_text` makes of `padQ`. -/
def padQexp : Str :=
  toS "! B3LYP\ndef2-SVP\n%scf MaxIter 200\nend\n* xyz 0 1 " ++ List.replicate 80 'Q'

/-- The event stream `html.parser` produces for
`<figure><img src="x.png"><figcaption>Cap</figcaption></figure>`. -/
def figFragEvents : List HtmlEvent :=
  [ .startTag (toS "figure") [],
    .startTag (toS "img") [(toS "src", toS "x.png")],
    .startTag (toS "figcaption") [],
    .dataText (toS "Cap"),
    .endTag (toS "figcaption"),
    .endTag (toS "figure") ]

/-! ## C1 — overlap invariant -/

/-- The plain chunker's emitted chunks and its recorded overlap tails
interleave correctly: there is exactly one tail per flush (none after the
final chunk), and each tail is exactly `joined[-overlap:]` of the chunk it
was flushed with, a suffix of that chunk, a prefix of the following chunk,
and no longer than the overlap budget. -/
def seedsLink (O : Nat) : List Str → List Str → Prop
  | [], [] => True
  | [_], [] => True
  | c1 :: c2 :: cs, s :: ss =>
      s = pyTailOf c1 O ∧ s <:+ c1 ∧ s <+: c2 ∧ s.length ≤ O ∧ seedsLink O (c2 :: cs) ss
  | _, _ => False

/-- When chunk `b`'s accumulation was seeded, the seed is within budget, a
suffix of the previous chunk's accumulated text, and a prefix of `b`'s. -/
def seedLinked (O : Nat) (a b : RawChunk) : Prop :=
  ∀ s : Str, b.seeded = some s → s.length ≤ O ∧ s <:+ a.accum ∧ s <+: b.accum

/-- C1 counterexample.  With `overlap = 0` the plain chunker carries the whole
previous chunk, four characters against a budget of zero (Python's
`joined[-0:]` is all of `joined`).  And in the heading-aware chunker the
carried seed `"ab\n"` is not a suffix of the emitted previous chunk `"ab"`,
whose trailing newline `strip()` removed. -/
theorem overlap_budget_cex :
    ((split_into_chunksSeeds exPlain ⟨4, 0⟩).2 = [toS "aaaa"] ∧ ¬ (toS "aaaa").length ≤ 0) ∧
    ((build_chunksRaw exBuildAB 5 3).map RawChunk.seeded = [none, some (toS "ab\n")] ∧
      (build_chunks exBuildAB 5 3).map Chunk.text = [toS "ab", toS "ab\ncdef"] ∧
      ¬ (toS "ab\n") <:+ (toS "ab")) := by
  decide

/-! ## C2 — chunk-size bound -/

/-- The amended size hypothesis on a block: a heading block takes at most a
fifth of the target (the `0.8 * target` headroom), any other block fits after
a full overlap seed. -/
def blockSizeOk (T O : Nat) (b : Str) : Prop :=
  if (headingGroups (pyStrip b)).isSome then 5 * b.length ≤ T else O + b.length ≤ T

instance decBlockSizeOk (T O : Nat) (b : Str) : Decidable (blockSizeOk T O b) := by
  unfold blockSizeOk
  split <;> infer_instance

/-- C2 counterexample: with `target_chars = 10` and `overlap = 8` every block
of the document has length at most 10, yet a chunk of length 13 is emitted —
the overlap seed plus the triggering block overflow the target with no
oversized block anywhere. -/
theorem chunk_size_bound_cex :
    (∀ bp ∈ iter_blocks exBlocks2, bp.1.length ≤ 10) ∧
    (∃ c ∈ build_chunks exBlocks2 10 8, 10 < c.text.length) := by
  decide

/-! ## C3 — heading stack -/

/-- C3 counterexample: in `# A / ## B / bbbb / ## C / cccc / # D / dddd` the
chunk holding the content under `C` records section path `["D"]` — `# D` has
already updated the stack when that chunk is emitted — never `["A", "B"]`. -/
theorem section_path_cex :
    (∃ c ∈ build_chunks exHeadDoc 1 1,
      (toS "cccc") <:+: c.text ∧ c.section_path = [toS "D"]) ∧
    (∀ c ∈ build_chunks exHeadDoc 1 1,
      (toS "cccc") <:+: c.text → c.section_path ≠ [toS "A", toS "B"]) := by
  decide

/-! ## C4 — tidy idempotence -/

/-- C4 counterexample: on `"<!-- image \n -->"` the first pass keeps both
lines (neither alone matches an artifact pattern) and then collapses the
whitespace run, producing the single line `"<!-- image -->"`; the second pass
removes that line, so cleaning twice gives `""` ≠ cleaning once. -/
theorem tidy_idem_cex : clean_text (clean_text exTidy) ≠ clean_text exTidy := by
  decide

/-! ## Prefix/suffix/infix helpers (spelled out through the existential
definitions of `<+:`, `<:+`, `<:+:`) -/

theorem infix_self (x : Str) : x <:+: x := ⟨[], [], by simp⟩

theorem infix_ext_left (x l r : Str) (h : x <:+: r) : x <:+: l ++ r := by
  obtain ⟨s, t, rfl⟩ := h
  exact ⟨l ++ s, t, by simp⟩

theorem pref_of_append (l r : Str) : l <+: l ++ r := ⟨r, rfl⟩

theorem pref_trans {a b c : Str} (h1 : a <+: b) (h2 : b <+: c) : a <+: c := by
  obtain ⟨t1, rfl⟩ := h1
  obtain ⟨t2, rfl⟩ := h2
  exact ⟨t1 ++ t2, by simp⟩

theorem pref_cong_left (l : Str) {a b : Str} (h : a <+: b) : l ++ a <+: l ++ b := by
  obtain ⟨t, rfl⟩ := h
  exact ⟨t, by simp⟩

theorem suff_of_drop (l : Str) (n : Nat) : l.drop n <:+ l :=
  ⟨l.take n, List.take_append_drop n l⟩

theorem suff_refl (l : Str) : l <:+ l := ⟨[], rfl⟩

/-! ## C5 — plain greedy chunker contract -/

theorem mem_infix_sepJoin : ∀ (buf : List Str) (x : Str), x ∈ buf → x <:+: sepJoin buf := by
  intro buf
  induction buf with
  | nil => intro x hx; cases hx
  | cons b bs ih =>
      intro x hx
      cases bs with
      | nil =>
          rcases List.mem_cons.mp hx with rfl | h
          · exact infix_self x
          · cases h
      | cons c cs =>
          rcases List.mem_cons.mp hx with rfl | h
          · exact ⟨[], toS "\n\n" ++ sepJoin (c :: cs), by simp [sepJoin]⟩
          · have := infix_ext_left x (b ++ toS "\n\n") (sepJoin (c :: cs)) (ih x h)
            simpa [sepJoin, List.append_assoc] using this

theorem splitGo_buf_mem (cfg : ChunkerCfg) :
    ∀ (paras buf : List Str) (cur : Nat) (x : Str), x ∈ buf →
      ∃ c ∈ (splitChunksGo cfg paras buf cur).1, x <:+: c := by
  intro paras
  induction paras with
  | nil =>
      intro buf cur x hx
      have hb : buf ≠ [] := by rintro rfl; cases hx
      refine ⟨sepJoin buf, ?_, mem_infix_sepJoin buf x hx⟩
      simp [splitChunksGo, hb]
  | cons p ps ih =>
      intro buf cur x hx
      by_cases h : cur + p.length + 2 ≤ cfg.max_chars ∨ buf = []
      · have := ih (buf ++ [p]) (cur + p.length + 2) x (List.mem_append_left _ hx)
        simpa [splitChunksGo, h] using this
      · refine ⟨sepJoin buf, ?_, mem_infix_sepJoin buf x hx⟩
        simp [splitChunksGo, h]

theorem splitGo_para_mem (cfg : ChunkerCfg) :
    ∀ (paras buf : List Str) (cur : Nat) (q : Str), q ∈ paras →
      ∃ c ∈ (splitChunksGo cfg paras buf cur).1, q <:+: c := by
  intro paras
  induction paras with
  | nil => intro _ _ q hq; cases hq
  | cons p ps ih =>
      intro buf cur q hq
      rcases List.mem_cons.mp hq with rfl | hq'
      · by_cases h : cur + q.length + 2 ≤ cfg.max_chars ∨ buf = []
        · have := splitGo_buf_mem cfg ps (buf ++ [q]) (cur + q.length + 2) q (by simp)
          simpa [splitChunksGo, h] using this
        · obtain ⟨c, hc, hinf⟩ := splitGo_buf_mem cfg ps
            [pyTailOf (sepJoin buf) cfg.overlap, q]
            ((pyTailOf (sepJoin buf) cfg.overlap).length + 2 + q.length) q (by simp)
          refine ⟨c, ?_, hinf⟩
          simp only [splitChunksGo, if_neg h]
          exact List.mem_cons_of_mem _ hc
      · by_cases h : cur + p.length + 2 ≤ cfg.max_chars ∨ buf = []
        · have := ih (buf ++ [p]) (cur + p.length + 2) q hq'
          simpa [splitChunksGo, h] using this
        · obtain ⟨c, hc, hinf⟩ := ih
            [pyTailOf (sepJoin buf) cfg.overlap, p]
            ((pyTailOf (sepJoin buf) cfg.overlap).length + 2 + p.length) q hq'
          refine ⟨c, ?_, hinf⟩
          simp only [splitChunksGo, if_neg h]
          exact List.mem_cons_of_mem _ hc

theorem splitGo_head_big (cfg : ChunkerCfg) :
    ∀ (paras buf : List Str) (cur : Nat), buf ≠ [] → cfg.max_chars < cur →
      ((splitChunksGo cfg paras buf cur).1).head? = some (sepJoin buf) := by
  intro paras
  induction paras with
  | nil => intro buf cur hb _; simp [splitChunksGo, hb]
  | cons p ps _ =>
      intro buf cur hb hcur
      have h : ¬ (cur + p.length + 2 ≤ cfg.max_chars ∨ buf = []) := by
        push_neg
        exact ⟨by omega, hb⟩
      simp [splitChunksGo, h]

/-- C5: the plain chunker splits on blank-line paragraphs and never drops
one — every paragraph of `pyParas text` is an infix of some emitted chunk —
and a first paragraph that alone overflows the budget is still placed,
emitted as the first chunk by itself (the buffer is empty only before the
first paragraph). -/
theorem plain_chunker_contract (text : Str) (cfg : ChunkerCfg) :
    (∀ p ∈ pyParas text, ∃ c ∈ split_into_chunks text cfg, p <:+: c) ∧
    (∀ p ps, pyParas text = p :: ps → cfg.max_chars < p.length + 2 →
      (split_into_chunks text cfg).head? = some p) := by
  constructor
  · intro p hp
    exact splitGo_para_mem cfg (pyParas text) [] 0 p hp
  · intro p ps hps hbig
    unfold split_into_chunks split_into_chunksSeeds
    rw [hps]
    have h : 0 + p.length + 2 ≤ cfg.max_chars ∨ ([] : List Str) = [] := Or.inr rfl
    have hh := splitGo_head_big cfg ps ([] ++ [p]) (0 + p.length + 2) (by simp) (by omega)
    simp only [splitChunksGo, if_pos h]
    simpa [sepJoin] using hh

/-- C5 witness at `exPlain` with budget 4, overlap 1: the paragraph `bb` is
kept, and the oversized first paragraph `aaaa` is the first chunk alone. -/
theorem plain_chunker_contract_witness :
    (∃ c ∈ split_into_chunks exPlain ⟨4, 1⟩, (toS "bb") <:+: c) ∧
    (split_into_chunks exPlain ⟨4, 1⟩).head? = some (toS "aaaa") :=
  ⟨(plain_chunker_contract exPlain ⟨4, 1⟩).1 (toS "bb") (by decide),
   (plain_chunker_contract exPlain ⟨4, 1⟩).2 (toS "aaaa") [toS "bb"] (by decide) (by decide)⟩

/-! ## C1 — the amended overlap invariant, proved -/

theorem sepJoin_pref_snoc : ∀ (buf : List Str) (p : Str), buf ≠ [] →
    sepJoin buf <+: sepJoin (buf ++ [p]) := by
  intro buf
  induction buf with
  | nil => intro p h; cases h rfl
  | cons b bs ih =>
      intro p _
      cases bs with
      | nil => exact ⟨toS "\n\n" ++ p, by simp [sepJoin]⟩
      | cons c cs =>
          have h2 := pref_cong_left (toS "\n\n") (ih p (by simp))
          have h3 := pref_cong_left b h2
          simpa [sepJoin, List.append_assoc] using h3

theorem splitGo_head_pref (cfg : ChunkerCfg) :
    ∀ (paras buf : List Str) (cur : Nat), buf ≠ [] →
      ∃ c rest, (splitChunksGo cfg paras buf cur).1 = c :: rest ∧ sepJoin buf <+: c := by
  intro paras
  induction paras with
  | nil =>
      intro buf cur hb
      exact ⟨sepJoin buf, [], by simp [splitChunksGo, hb], ⟨[], by simp⟩⟩
  | cons p ps ih =>
      intro buf cur hb
      by_cases h : cur + p.length + 2 ≤ cfg.max_chars ∨ buf = []
      · obtain ⟨c, rest, heq, hpref⟩ := ih (buf ++ [p]) (cur + p.length + 2) (by simp)
        refine ⟨c, rest, ?_, pref_trans (sepJoin_pref_snoc buf p hb) hpref⟩
        simpa [splitChunksGo, h] using heq
      · exact ⟨sepJoin buf,
          (splitChunksGo cfg ps [pyTailOf (sepJoin buf) cfg.overlap, p]
            ((pyTailOf (sepJoin buf) cfg.overlap).length + 2 + p.length)).1,
          by simp only [splitChunksGo, if_neg h], ⟨[], by simp⟩⟩

theorem pyTailOf_props (j : Str) (O : Nat) (hO : 1 ≤ O) :
    pyTailOf j O <:+ j ∧ (pyTailOf j O).length ≤ O := by
  unfold pyTailOf pySliceFromEnd
  have h0 : ¬ O = 0 := by omega
  by_cases h : O < j.length
  · simp only [if_pos h, if_neg h0]
    exact ⟨suff_of_drop _ _, by rw [List.length_drop]; omega⟩
  · simp only [if_neg h]
    exact ⟨suff_refl j, by omega⟩

theorem splitGo_seeds (cfg : ChunkerCfg) (hO : 1 ≤ cfg.overlap) :
    ∀ (paras buf : List Str) (cur : Nat), buf ≠ [] →
      seedsLink cfg.overlap (splitChunksGo cfg paras buf cur).1 (splitChunksGo cfg paras buf cur).2 := by
  intro paras
  induction paras with
  | nil =>
      intro buf cur hb
      simp [splitChunksGo, hb, seedsLink]
  | cons p ps ih =>
      intro buf cur hb
      by_cases h : cur + p.length + 2 ≤ cfg.max_chars ∨ buf = []
      · have := ih (buf ++ [p]) (cur + p.length + 2) (by simp)
        simpa [splitChunksGo, h] using this
      · simp only [splitChunksGo, if_neg h]
        obtain ⟨c, rest, heq, hpref⟩ :=
          splitGo_head_pref cfg ps [pyTailOf (sepJoin buf) cfg.overlap, p]
            ((pyTailOf (sepJoin buf) cfg.overlap).length + 2 + p.length) (by simp)
        have hlink := ih [pyTailOf (sepJoin buf) cfg.overlap, p]
          ((pyTailOf (sepJoin buf) cfg.overlap).length + 2 + p.length) (by simp)
        rw [heq] at hlink ⊢
        obtain ⟨hsuf, hlen⟩ := pyTailOf_props (sepJoin buf) cfg.overlap hO
        simp only [seedsLink]
        refine ⟨trivial, hsuf, ?_, hlen, hlink⟩
        have hj : sepJoin [pyTailOf (sepJoin buf) cfg.overlap, p] =
            pyTailOf (sepJoin buf) cfg.overlap ++ (toS "\n\n" ++ p) := by
          simp [sepJoin]
        refine pref_trans ?_ hpref
        rw [hj]
        exact pref_of_append _ _

theorem split_seeds (text : Str) (cfg : ChunkerCfg) (hO : 1 ≤ cfg.overlap) :
    seedsLink cfg.overlap (split_into_chunks text cfg) (split_into_chunksSeeds text cfg).2 := by
  unfold split_into_chunks split_into_chunksSeeds
  cases hp : pyParas text with
  | nil => simp [splitChunksGo, seedsLink]
  | cons p ps =>
      have := splitGo_seeds cfg hO ps ([] ++ [p]) (0 + p.length + 2) (by simp)
      simpa [splitChunksGo] using this

theorem pySlice_pref_flatten (seed b : Str) : seed <+: ([seed, b] : List Str).flatten := by
  refine ⟨b ++ [], ?_⟩
  simp

theorem buildGo_chain (T O : Nat) (hO : 1 ≤ O) :
    ∀ (bs : List (Str × Nat)) (st : BState),
      (∀ s, st.seeded = some s → s <+: st.current.flatten) →
      List.Chain' (seedLinked O) (buildGo T O bs st) ∧
      (∀ c ∈ (buildGo T O bs st).head?, c.seeded = st.seeded ∧ st.current.flatten <+: c.accum) := by
  intro bs
  induction bs with
  | nil =>
      intro st _
      by_cases hc : st.current = []
      · simp [buildGo, hc]
      · refine ⟨by simp [buildGo, hc], ?_⟩
        intro c hc2
        simp only [buildGo, if_neg hc, List.head?_cons, Option.mem_def, Option.some.injEq] at hc2
        subst hc2
        exact ⟨rfl, ⟨[], by simp⟩⟩
  | cons bo bs ih =>
      obtain ⟨b, off⟩ := bo
      intro st hseed
      rcases hh : headingGroups (pyStrip b) with _ | ⟨lvl, g2⟩
      · -- non-heading block
        simp only [buildGo, hh]
        by_cases hov : T < st.currentLen + b.length ∧ st.current ≠ []
        · simp only [if_pos hov]
          set seed := pySliceFromEnd st.current.flatten O with hseeddef
          have hstN : ∀ s, (some seed : Option Str) = some s →
              s <+: ([seed, b] : List Str).flatten := by
            rintro s hs
            cases hs
            exact pySlice_pref_flatten _ _
          obtain ⟨hch, hhd⟩ := ih ⟨[seed, b], seed.length + b.length, off - seed.length,
            st.chunkIdx + 1, st.stack, some seed⟩ hstN
          rw [List.chain'_cons']
          constructor
          constructor
          · intro y hy
            obtain ⟨hys, hypref⟩ := hhd y hy
            intro s hs
            rw [hys] at hs
            cases hs
            have hsl : pySliceFromEnd st.current.flatten O <:+ st.current.flatten ∧
                (pySliceFromEnd st.current.flatten O).length ≤ O := by
              unfold pySliceFromEnd
              have h0 : ¬ O = 0 := by omega
              by_cases h : st.current.flatten.length ≤ O
              · simp only [if_neg h0]
                constructor
                · exact suff_of_drop _ _
                · rw [List.length_drop]; omega
              · simp only [if_neg h0]
                exact ⟨suff_of_drop _ _, by rw [List.length_drop]; omega⟩
            exact ⟨hsl.2, hsl.1, pref_trans (pySlice_pref_flatten _ _) hypref⟩
          · exact hch
          · intro c hcm
            simp only [List.head?_cons, Option.mem_def, Option.some.injEq] at hcm
            subst hcm
            exact ⟨rfl, ⟨[], by simp⟩⟩
        · simp only [if_neg hov]
          have hstA : ∀ s, st.seeded = some s →
              s <+: (st.current ++ [b]).flatten := by
            intro s hs
            have := hseed s hs
            rw [List.flatten_append]
            exact pref_trans this (pref_of_append _ _)
          obtain ⟨hch, hhd⟩ := ih ⟨st.current ++ [b], st.currentLen + b.length,
            if st.current = [] then off else st.currentOffset, st.chunkIdx, st.stack, st.seeded⟩ hstA
          refine ⟨hch, ?_⟩
          intro c hcm
          obtain ⟨hys, hypref⟩ := hhd c hcm
          refine ⟨hys, pref_trans ?_ hypref⟩
          rw [List.flatten_append]
          exact pref_of_append _ _
      · -- heading block
        simp only [buildGo, hh]
        by_cases hth : 4 * T ≤ 5 * st.currentLen
        · simp only [if_pos hth]
          have hstH : ∀ s, (none : Option Str) = some s →
              s <+: ([b] : List Str).flatten := by
            intro s hs; cases hs
          obtain ⟨hch, hhd⟩ := ih ⟨[b], b.length, off, st.chunkIdx + 1,
            popWhileGE lvl st.stack ++ [(lvl, pyStrip g2)], none⟩ hstH
          rw [List.chain'_cons']
          refine ⟨⟨?_, hch⟩, ?_⟩
          · intro y hy
            obtain ⟨hys, _⟩ := hhd y hy
            intro s hs
            rw [hys] at hs
            cases hs
          · intro c hcm
            simp only [List.head?_cons, Option.mem_def, Option.some.injEq] at hcm
            subst hcm
            exact ⟨rfl, ⟨[], by simp⟩⟩
        · simp only [if_neg hth]
          have hstA : ∀ s, st.seeded = some s →
              s <+: (st.current ++ [b]).flatten := by
            intro s hs
            rw [List.flatten_append]
            exact pref_trans (hseed s hs) (pref_of_append _ _)
          obtain ⟨hch, hhd⟩ := ih ⟨st.current ++ [b], st.currentLen + b.length,
            if st.current = [] then off else st.currentOffset, st.chunkIdx,
            popWhileGE lvl st.stack ++ [(lvl, pyStrip g2)], st.seeded⟩ hstA
          refine ⟨hch, ?_⟩
          intro c hcm
          obtain ⟨hys, hypref⟩ := hhd c hcm
          refine ⟨hys, pref_trans ?_ hypref⟩
          rw [List.flatten_append]
          exact pref_of_append _ _

/-- C1, amended.  With an overlap budget of at least one character: in the
plain chunker the carried overlap tails interleave the emitted chunks —
exactly one tail per flush, each tail equal to `joined[-overlap:]` of the
chunk flushed with it, a suffix of that chunk, a prefix of the next chunk,
and of length at most `overlap` (so every chunk after the first begins with
the carried suffix of its predecessor); in the heading-aware chunker every
overlap-seeded chunk's seed has length at most `overlap_chars`, is a suffix
of the previous chunk's accumulated (pre-strip) text, and is a prefix of the
seeded chunk's accumulated text.  (With `overlap = 0` the slice `[-0:]`
carries everything, and the final `strip()` can break suffix-hood of the
emitted text — see the counterexample.) -/
theorem overlap_seed_invariant (text md : Str) (cfg : ChunkerCfg) (T O : Nat)
    (h1 : 1 ≤ cfg.overlap) (h2 : 1 ≤ O) :
    seedsLink cfg.overlap (split_into_chunks text cfg) (split_into_chunksSeeds text cfg).2 ∧
    List.Chain' (seedLinked O) (build_chunksRaw md T O) := by
  refine ⟨split_seeds text cfg h1, ?_⟩
  refine (buildGo_chain T O h2 (iter_blocks md) buildInit ?_).1
  intro s hs
  simp [buildInit] at hs

/-- C1 witness: the invariant at the concrete inputs of the counterexample,
with positive budgets. -/
theorem overlap_seed_invariant_witness :
    seedsLink 1 (split_into_chunks exPlain ⟨4, 1⟩) (split_into_chunksSeeds exPlain ⟨4, 1⟩).2 ∧
    List.Chain' (seedLinked 3) (build_chunksRaw exBuildAB 5 3) :=
  overlap_seed_invariant exPlain exBuildAB ⟨4, 1⟩ 5 3 (by decide) (by decide)

/-! ## C6 — fenced code atomicity -/

theorem iterBlocksGo_code_run (fcl : Str) (rest : List Str) (hcl : isFenceLine fcl = true) :
    ∀ (body : List Str) (blockAcc : List Str) (off bsAcc : Nat),
      (∀ l ∈ body, isFenceLine l = false) →
      (blockAcc.flatten ++ body.flatten ++ fcl, bsAcc) ∈
        iterBlocksGo (body ++ fcl :: rest) blockAcc off bsAcc true := by
  intro body
  induction body with
  | nil =>
      intro blockAcc off bsAcc _
      simp [iterBlocksGo, hcl]
  | cons l ls ih =>
      intro blockAcc off bsAcc hbody
      have hl : isFenceLine l = false := hbody l (by simp)
      have hbody' : ∀ x ∈ ls, isFenceLine x = false := fun x hx => hbody x (by simp [hx])
      have h := ih (blockAcc ++ [l]) (off + l.length) bsAcc hbody'
      simp only [List.cons_append, iterBlocksGo, hl, Bool.false_eq_true, if_false, if_true]
      simpa [List.flatten_append, List.append_assoc] using h

/-- C6: a fenced region — the opening fence line, any body lines that are not
fence lines, and the closing fence line — is emitted by the block iterator as
one single block, whatever block was accumulating and wherever the region sits
(state with the in-code flag off); it is therefore never split across a block
boundary. -/
theorem fenced_block_atomic (blockAcc : List Str) (off bsAcc : Nat)
    (fop : Str) (body : List Str) (fcl : Str) (rest : List Str)
    (hop : isFenceLine fop = true) (hcl : isFenceLine fcl = true)
    (hbody : ∀ l ∈ body, isFenceLine l = false) :
    (fop ++ body.flatten ++ fcl, off) ∈
      iterBlocksGo (fop :: (body ++ fcl :: rest)) blockAcc off bsAcc false := by
  have h := iterBlocksGo_code_run fcl rest hcl body [fop] (off + fop.length) off hbody
  simp only [iterBlocksGo, hop, Bool.not_false, if_true]
  refine List.mem_append_right _ ?_
  simpa using h

/-- C6 witness: the fenced region of `a / ``` / code / (blank) / # h / ``` / b`
is one block. -/
theorem fenced_block_atomic_witness :
    (toS "```\n" ++ ([toS "code\n", toS "\n", toS "# h\n"] : List Str).flatten ++ toS "```\n", 2) ∈
      iterBlocksGo (toS "```\n" :: ([toS "code\n", toS "\n", toS "# h\n"] ++ toS "```\n" :: [toS "b"]))
        [toS "a\n"] 2 0 false :=
  fenced_block_atomic [toS "a\n"] 2 0 (toS "```\n") [toS "code\n", toS "\n", toS "# h\n"]
    (toS "```\n") [toS "b"] (by decide) (by decide) (by decide)

/-! ## C3 — heading stack, amended -/

theorem popWhileGE_eq_filter (lvl : Nat) :
    ∀ st : List (Nat × Str), st.Pairwise (fun a b => a.1 < b.1) →
      popWhileGE lvl st = st.filter (fun e => decide (e.1 < lvl)) := by
  intro st
  induction st with
  | nil => intro _; rfl
  | cons x xs ih =>
      intro hp
      rw [List.pairwise_cons] at hp
      obtain ⟨hx, hxs⟩ := hp
      have ihx := ih hxs
      by_cases hr : popWhileGE lvl xs = []
      · have hfil : xs.filter (fun e => decide (e.1 < lvl)) = [] := ihx ▸ hr
        by_cases hxl : lvl ≤ x.1
        · have step : popWhileGE lvl (x :: xs) = [] := by
            simp only [popWhileGE]
            rw [if_pos hr, if_pos hxl]
          have hxf : ¬ x.1 < lvl := by omega
          rw [step, List.filter_cons]
          simp [hxf, hfil]
        · have step : popWhileGE lvl (x :: xs) = [x] := by
            simp only [popWhileGE]
            rw [if_pos hr, if_neg hxl]
          have hxf : x.1 < lvl := by omega
          rw [step, List.filter_cons]
          simp [hxf, hfil]
      · have hex : ∃ e ∈ xs, e.1 < lvl := by
          by_contra hno
          push_neg at hno
          exact hr (ihx.trans (List.filter_eq_nil_iff.mpr (by simpa using hno)))
        obtain ⟨e, he, hel⟩ := hex
        have hxf : x.1 < lvl := lt_trans (hx e he) hel
        have step : popWhileGE lvl (x :: xs) = x :: popWhileGE lvl xs := by
          simp only [popWhileGE]
          rw [if_neg hr]
        rw [step, ihx, List.filter_cons]
        simp [hxf]

set_option maxRecDepth 8000 in
/-- C3, amended.  A heading at depth `lvl` pops exactly the stack entries of
depth ≥ `lvl` (on the strictly increasing stacks the chunker builds) before
pushing itself; and on `# A / ## B / bbbb / ## C / cccc / # D / dddd` every
chunk records the stack as of its own emission, giving section paths
`A,B / A,B / A,C / A,C / D / D / D` — in particular the chunk with the content
under `C` records `["D"]`, not `["A","B"]`. -/
theorem heading_stack_correctness (st : List (Nat × Str)) (lvl : Nat) (t : Str)
    (hs : st.Pairwise (fun a b => a.1 < b.1)) :
    popWhileGE lvl st ++ [(lvl, t)] = st.filter (fun e => decide (e.1 < lvl)) ++ [(lvl, t)] ∧
    (build_chunks exHeadDoc 1 1).map Chunk.section_path =
      [[toS "A", toS "B"], [toS "A", toS "B"], [toS "A", toS "C"], [toS "A", toS "C"],
       [toS "D"], [toS "D"], [toS "D"]] :=
  ⟨by rw [popWhileGE_eq_filter lvl st hs], by decide⟩

/-- C3 witness: pushing `## C` onto the stack `[(1, A), (2, B)]` pops `B` and
keeps `A`. -/
theorem heading_stack_correctness_witness :
    popWhileGE 2 [(1, toS "A"), (2, toS "B")] ++ [(2, toS "C")] =
      List.filter (fun e => decide (e.1 < 2)) [(1, toS "A"), (2, toS "B")] ++ [(2, toS "C")] ∧
    (build_chunks exHeadDoc 1 1).map Chunk.section_path =
      [[toS "A", toS "B"], [toS "A", toS "B"], [toS "A", toS "C"], [toS "A", toS "C"],
       [toS "D"], [toS "D"], [toS "D"]] :=
  heading_stack_correctness [(1, toS "A"), (2, toS "B")] 2 (toS "C") (by decide)

/-! ## C2 — chunk-size bound, amended -/

theorem dropWhile_len (p : Char → Bool) (l : Str) : (l.dropWhile p).length ≤ l.length := by
  conv_rhs => rw [← List.takeWhile_append_dropWhile (p := p) (l := l)]
  rw [List.length_append]
  omega

theorem pyStrip_len (l : Str) : (pyStrip l).length ≤ l.length := by
  unfold pyStrip pyStripRight pyStripLeft
  rw [List.length_reverse]
  calc ((l.dropWhile isPySpace).reverse.dropWhile isPySpace).length
      ≤ (l.dropWhile isPySpace).reverse.length := dropWhile_len _ _
    _ = (l.dropWhile isPySpace).length := List.length_reverse _
    _ ≤ l.length := dropWhile_len _ _

theorem pySlice_len (l : Str) (O : Nat) (hO : 1 ≤ O) : (pySliceFromEnd l O).length ≤ O := by
  unfold pySliceFromEnd
  have h0 : ¬ O = 0 := by omega
  rw [if_neg h0, List.length_drop]
  omega

theorem buildGo_size (T O : Nat) (hO : 1 ≤ O) :
    ∀ (bs : List (Str × Nat)) (st : BState),
      (∀ bp ∈ bs, blockSizeOk T O bp.1) →
      st.currentLen = st.current.flatten.length →
      st.currentLen ≤ T →
      ∀ c ∈ buildGo T O bs st, (pyStrip c.accum).length ≤ T := by
  intro bs
  induction bs with
  | nil =>
      intro st _ hlen hle c hc
      by_cases h : st.current = []
      · simp [buildGo, h] at hc
      · simp only [buildGo, if_neg h, List.mem_singleton] at hc
        subst hc
        calc (pyStrip st.current.flatten).length ≤ st.current.flatten.length := pyStrip_len _
          _ = st.currentLen := hlen.symm
          _ ≤ T := hle
  | cons bo bs ih =>
      obtain ⟨b, off⟩ := bo
      intro st hb hlen hle c hc
      have hbb := hb (b, off) (by simp)
      have hbs : ∀ bp ∈ bs, blockSizeOk T O bp.1 := fun bp hp => hb bp (by simp [hp])
      rcases hh : headingGroups (pyStrip b) with _ | ⟨lvl, g2⟩
      · have hobk : O + b.length ≤ T := by
          unfold blockSizeOk at hbb
          rw [hh] at hbb
          simpa using hbb
        simp only [buildGo, hh] at hc
        by_cases hov : T < st.currentLen + b.length ∧ st.current ≠ []
        · rw [if_pos hov] at hc
          rcases List.mem_cons.mp hc with rfl | hc'
          · calc (pyStrip st.current.flatten).length ≤ st.current.flatten.length := pyStrip_len _
              _ = st.currentLen := hlen.symm
              _ ≤ T := hle
          · refine ih _ hbs ?_ ?_ c hc'
            · simp
            · have := pySlice_len st.current.flatten O hO
              dsimp only
              omega
        · rw [if_neg hov] at hc
          refine ih _ hbs ?_ ?_ c hc
          · simp [List.flatten_append, hlen]
          · dsimp only
            rcases not_and_or.mp hov with h1 | h2
            · omega
            · have hcur : st.current = [] := not_not.mp h2
              have hz : st.currentLen = 0 := by
                rw [hlen, hcur]
                rfl
              omega
      · have hhb : 5 * b.length ≤ T := by
          unfold blockSizeOk at hbb
          rw [hh] at hbb
          simpa using hbb
        simp only [buildGo, hh] at hc
        by_cases hth : 4 * T ≤ 5 * st.currentLen
        · rw [if_pos hth] at hc
          rcases List.mem_cons.mp hc with rfl | hc'
          · calc (pyStrip st.current.flatten).length ≤ st.current.flatten.length := pyStrip_len _
              _ = st.currentLen := hlen.symm
              _ ≤ T := hle
          · refine ih _ hbs ?_ ?_ c hc'
            · simp
            · dsimp only
              omega
        · rw [if_neg hth] at hc
          refine ih _ hbs ?_ ?_ c hc
          · simp [List.flatten_append, hlen]
          · dsimp only
            omega

set_option maxRecDepth 8000 in
/-- C2, amended.  The claim fails as stated (see the counterexample: the
overlap seed plus a block can overflow the target).  What holds: with
`overlap ≥ 1`, heading blocks no longer than a fifth of the target and every
other block fitting together with a full overlap seed, no chunk's text exceeds
`target_chars`; and a single oversized block still appears whole in exactly
one chunk, shown for a 20-character paragraph with target 10 and overlap 3. -/
theorem chunk_size_bound (md : Str) (T O : Nat) (hO : 1 ≤ O)
    (hb : ∀ bp ∈ iter_blocks md, blockSizeOk T O bp.1) :
    (∀ c ∈ build_chunks md T O, c.text.length ≤ T) ∧
    ((build_chunks exOversized 10 3).map Chunk.text = [List.replicate 20 'x', toS "xx\nyy"] ∧
      (build_chunks exOversized 10 3).countP
        (fun c => decide (List.replicate 20 'x' <:+: c.text)) = 1) := by
  refine ⟨?_, by decide, by decide⟩
  intro c hc
  unfold build_chunks at hc
  obtain ⟨r, hr, rfl⟩ := List.mem_map.mp hc
  exact buildGo_size T O hO (iter_blocks md) buildInit hb rfl (Nat.zero_le T) r hr

/-- C2 witness: with target 20 and overlap 1 every block of `exBlocks2`
satisfies the size hypotheses, and indeed every chunk stays within 20. -/
theorem chunk_size_bound_witness :
    (∀ c ∈ build_chunks exBlocks2 20 1, c.text.length ≤ 20) ∧
    ((build_chunks exOversized 10 3).map Chunk.text = [List.replicate 20 'x', toS "xx\nyy"] ∧
      (build_chunks exOversized 10 3).countP
        (fun c => decide (List.replicate 20 'x' <:+: c.text)) = 1) :=
  chunk_size_bound exBlocks2 20 1 (by decide) (by decide)

/-! ## C4 — the replacement stage converges in one pass -/

theorem subRuns1_no_special : ∀ (s : Str) (b : Bool) (c : Char),
    c ∈ subRuns1Go isSpecialSym b s → isSpecialSym c = false := by
  intro s
  induction s with
  | nil => intro b c hc; cases hc
  | cons a as ih =>
      intro b c hc
      by_cases ha : isSpecialSym a = true
      · cases b with
        | true =>
            rw [subRuns1Go, if_pos ha] at hc
            exact ih true c hc
        | false =>
            rw [subRuns1Go, if_pos ha] at hc
            rcases List.mem_cons.mp hc with rfl | hc'
            · rfl
            · exact ih true c hc'
      · rw [subRuns1Go, if_neg ha] at hc
        rcases List.mem_cons.mp hc with rfl | hc'
        · simpa using ha
        · exact ih false c hc'

theorem subWs2_step_run (a : Char) (as : Str) (ha : isPySpace a = true) :
    subWs2Go true (a :: as) = subWs2Go true as := by
  simp [subWs2Go, ha]

theorem subWs2_step_keep (b : Bool) (a : Char) (as : Str) (ha : ¬ isPySpace a = true) :
    subWs2Go b (a :: as) = a :: subWs2Go false as := by
  cases b <;> simp [subWs2Go, ha]

theorem subWs2_step_one (a : Char) (ha : isPySpace a = true) :
    subWs2Go false [a] = [a] := by
  simp [subWs2Go, ha]

theorem subWs2_step_pair (a d : Char) (ds : Str)
    (ha : isPySpace a = true) (hd : isPySpace d = true) :
    subWs2Go false (a :: d :: ds) = ' ' :: subWs2Go true (d :: ds) := by
  simp [subWs2Go, ha, hd]

theorem subWs2_step_sep (a d : Char) (ds : Str)
    (ha : isPySpace a = true) (hd : ¬ isPySpace d = true) :
    subWs2Go false (a :: d :: ds) = a :: subWs2Go false (d :: ds) := by
  simp [subWs2Go, ha, hd]

theorem subWs2_sub_chars : ∀ (s : Str) (b : Bool) (c : Char),
    c ∈ subWs2Go b s → c ∈ s ∨ c = ' ' := by
  intro s
  induction s with
  | nil => intro b c hc; cases hc
  | cons a as ih =>
      intro b c hc
      by_cases ha : isPySpace a = true
      · cases b with
        | true =>
            rw [subWs2_step_run a as ha] at hc
            rcases ih true c hc with h | h
            · exact Or.inl (List.mem_cons_of_mem _ h)
            · exact Or.inr h
        | false =>
            cases as with
            | nil =>
                rw [subWs2_step_one a ha] at hc
                rcases List.mem_cons.mp hc with rfl | hc'
                · exact Or.inl (by simp)
                · cases hc'
            | cons d ds =>
                by_cases hd : isPySpace d = true
                · rw [subWs2_step_pair a d ds ha hd] at hc
                  rcases List.mem_cons.mp hc with rfl | hc'
                  · exact Or.inr rfl
                  · rcases ih true c hc' with h | h
                    · exact Or.inl (List.mem_cons_of_mem _ h)
                    · exact Or.inr h
                · rw [subWs2_step_sep a d ds ha hd] at hc
                  rcases List.mem_cons.mp hc with rfl | hc'
                  · exact Or.inl (by simp)
                  · rcases ih false c hc' with h | h
                    · exact Or.inl (List.mem_cons_of_mem _ h)
                    · exact Or.inr h
      · rw [subWs2_step_keep b a as ha] at hc
        rcases List.mem_cons.mp hc with rfl | hc'
        · exact Or.inl (by simp)
        · rcases ih false c hc' with h | h
          · exact Or.inl (List.mem_cons_of_mem _ h)
          · exact Or.inr h

theorem subWs2_true_drop : ∀ s : Str, subWs2Go true s = subWs2Go false (s.dropWhile isPySpace) := by
  intro s
  induction s with
  | nil => rfl
  | cons a as ih =>
      by_cases ha : isPySpace a = true
      · rw [subWs2_step_run a as ha, List.dropWhile_cons_of_pos ha, ih]
      · rw [subWs2_step_keep true a as ha, List.dropWhile_cons_of_neg ha,
          subWs2_step_keep false a as ha]

theorem dropWhile_head_not (l : Str) (c : Char)
    (hc : (l.dropWhile isPySpace).head? = some c) : isPySpace c = false := by
  induction l with
  | nil => cases hc
  | cons a as ih =>
      by_cases ha : isPySpace a = true
      · rw [List.dropWhile_cons_of_pos ha] at hc
        exact ih hc
      · rw [List.dropWhile_cons_of_neg ha, List.head?_cons, Option.some.injEq] at hc
        subst hc
        simpa using ha

theorem subWs2_head_not (t : Str) (ht : ∀ c, t.head? = some c → isPySpace c = false) :
    ∀ c, (subWs2Go false t).head? = some c → isPySpace c = false := by
  intro c hc
  cases t with
  | nil => cases hc
  | cons a as =>
      have ha := ht a rfl
      rw [subWs2_step_keep false a as (by simp [ha])] at hc
      rw [List.head?_cons, Option.some.injEq] at hc
      subst hc
      exact ha

theorem subWs2_chain : ∀ (n : Nat) (s : Str), s.length ≤ n →
    List.Chain' (fun a b => ¬(isPySpace a = true ∧ isPySpace b = true)) (subWs2Go false s) := by
  intro n
  induction n with
  | zero =>
      intro s hs
      have : s = [] := List.length_eq_zero.mp (Nat.le_zero.mp hs)
      subst this
      simp [subWs2Go]
  | succ n ih =>
      intro s hs
      cases s with
      | nil => simp [subWs2Go]
      | cons a as =>
          simp only [List.length_cons, Nat.add_le_add_iff_right] at hs
          by_cases ha : isPySpace a = true
          · cases as with
            | nil =>
                rw [subWs2_step_one a ha]
                simp
            | cons d ds =>
                by_cases hd : isPySpace d = true
                · rw [subWs2_step_pair a d ds ha hd, subWs2_true_drop]
                  rw [List.chain'_cons']
                  constructor
                  · intro y hy
                    have hy' := subWs2_head_not ((d :: ds).dropWhile isPySpace)
                      (fun c hc => dropWhile_head_not _ c hc) y (Option.mem_def.mp hy)
                    intro hcon
                    rw [hy'] at hcon
                    exact Bool.false_ne_true hcon.2
                  · refine ih _ ?_
                    calc ((d :: ds).dropWhile isPySpace).length ≤ (d :: ds).length :=
                          dropWhile_len _ _
                      _ ≤ n := hs
                · rw [subWs2_step_sep a d ds ha hd]
                  rw [List.chain'_cons']
                  constructor
                  · intro y hy
                    rw [subWs2_step_keep false d ds hd, List.head?_cons,
                      Option.mem_def, Option.some.injEq] at hy
                    subst hy
                    exact fun hcon => hd hcon.2
                  · exact ih (d :: ds) hs
          · rw [subWs2_step_keep false a as ha]
            rw [List.chain'_cons']
            constructor
            · intro y _
              intro hcon
              exact ha hcon.1
            · exact ih as (by omega)

theorem subRuns1_id : ∀ s : Str, (∀ c ∈ s, isSpecialSym c = false) →
    subRuns1Go isSpecialSym false s = s := by
  intro s
  induction s with
  | nil => intro _; rfl
  | cons a as ih =>
      intro h
      have ha : ¬ isSpecialSym a = true := by
        rw [h a (by simp)]
        simp
      rw [subRuns1Go, if_neg ha, ih (fun c hc => h c (List.mem_cons_of_mem _ hc))]

theorem subWs2_id : ∀ s : Str,
    List.Chain' (fun a b => ¬(isPySpace a = true ∧ isPySpace b = true)) s →
    subWs2Go false s = s := by
  intro s
  induction s with
  | nil => intro _; rfl
  | cons a as ih =>
      intro hch
      by_cases ha : isPySpace a = true
      · cases as with
        | nil => rw [subWs2_step_one a ha]
        | cons d ds =>
            have hd : ¬ isPySpace d = true := fun hd => (List.chain'_cons.mp hch).1 ⟨ha, hd⟩
            rw [subWs2_step_sep a d ds ha hd, ih (List.chain'_cons.mp hch).2]
      · rw [subWs2_step_keep false a as ha, ih hch.tail]

/-- C4, amended.  Running the full cleanup twice is not the same as running it
once (counterexample: whitespace collapsing can fuse an artifact marker that
the second pass then removes).  What does converge on the first pass is the
`REPLACEMENTS` stage: the symbol and whitespace substitutions are idempotent —
one application leaves no special symbol and no adjacent whitespace pair, so a
second application is the identity. -/
theorem replacements_idempotent (s : Str) :
    applyReplacements (applyReplacements s) = applyReplacements s := by
  unfold applyReplacements
  have hnosp : ∀ c ∈ subWs2Go false (subRuns1Go isSpecialSym false s), isSpecialSym c = false := by
    intro c hc
    rcases subWs2_sub_chars _ false c hc with h | rfl
    · exact subRuns1_no_special s false c h
    · rfl
  rw [subRuns1_id _ hnosp]
  exact subWs2_id _ (subWs2_chain _ _ (le_refl _))

/-! ## C7 — figure harvesting -/

/-- An `</figure>` event. -/
def isFigureEnd : HtmlEvent → Bool
  | .endTag t => t = toS "figure"
  | _ => false

theorem figStart_items (st : FigState) (t : Str) (a : List (Str × Str)) :
    (figStart st t a).items = st.items := by
  simp only [figStart]
  split_ifs <;> rfl

theorem figData_items (st : FigState) (s : Str) : (figData st s).items = st.items := by
  unfold figData
  split <;> rfl

theorem figEnd_items_length (st : FigState) (t : Str) :
    (figEnd st t).items.length = st.items.length + (if isFigureEnd (.endTag t) then 1 else 0) := by
  unfold figEnd isFigureEnd
  split <;> split <;> simp_all

/-- Python truthiness of `it.get("caption") or it.get("src")`, spelled out:
a record is kept exactly when its caption is non-empty or its source is
present and non-empty. -/
theorem figKept_iff (it : FigItem) :
    figKept it = true ↔ (it.caption ≠ [] ∨ (it.src ≠ none ∧ it.src ≠ some [])) := by
  obtain ⟨src, cap⟩ := it
  cases src with
  | none => simp [figKept]
  | some s => by_cases hs : s = [] <;> simp [figKept, hs]

/-- C7: the harvester appends exactly one record per `</figure>` event; a
record of the harvester is dropped by `harvest_figures`' filter only when its
caption and its source are both empty (every record with a non-empty caption
or source survives, and every survivor has one); and the fragment
`<figure><img src="x.png"><figcaption>Cap</figcaption></figure>` yields
exactly the one record `{src: "x.png", caption: "Cap"}`. -/
theorem figure_harvest_spec :
    (∀ (evs : List HtmlEvent) (st : FigState),
      (feedFigures st evs).items.length = st.items.length + evs.countP isFigureEnd) ∧
    (∀ (evs : List HtmlEvent), ∀ it ∈ (feedFigures {} evs).items,
      (it.caption ≠ [] ∨ (it.src ≠ none ∧ it.src ≠ some [])) → it ∈ harvest_figures evs) ∧
    (∀ (evs : List HtmlEvent), ∀ it ∈ (feedFigures {} evs).items,
      it ∉ harvest_figures evs → it.caption = [] ∧ (it.src = none ∨ it.src = some [])) ∧
    (∀ (evs : List HtmlEvent), ∀ it ∈ harvest_figures evs,
      it.caption ≠ [] ∨ (it.src ≠ none ∧ it.src ≠ some [])) ∧
    harvest_figures figFragEvents = [⟨some (toS "x.png"), toS "Cap"⟩] := by
  refine ⟨?_, ?_, ?_, ?_, by decide⟩
  · intro evs
    induction evs with
    | nil => intro st; simp [feedFigures]
    | cons e evs ih =>
        intro st
        cases e with
        | startTag t a =>
            simp [feedFigures, ih, figStart_items, List.countP_cons, isFigureEnd]
        | endTag t =>
            simp [feedFigures, ih, figEnd_items_length, List.countP_cons]
            omega
        | dataText s =>
            simp [feedFigures, ih, figData_items, List.countP_cons, isFigureEnd]
  · intro evs it hmem hne
    exact List.mem_filter.mpr ⟨hmem, (figKept_iff it).mpr hne⟩
  · intro evs it hmem hnot
    have hk : ¬ figKept it = true := fun hk' =>
      hnot (List.mem_filter.mpr ⟨hmem, hk'⟩)
    have hne := fun h => hk ((figKept_iff it).mpr h)
    constructor
    · by_contra hcap
      exact hne (Or.inl hcap)
    · rcases hsrc : it.src with _ | s
      · exact Or.inl rfl
      · by_cases hs : s = []
        · exact Or.inr (by rw [hs])
        · exact absurd (Or.inr ⟨by simp [hsrc], by simp [hsrc, hs]⟩) hne
  · intro evs it hit
    exact (figKept_iff it).mp (List.mem_filter.mp hit).2

/-! ## C8 — ORCA flattened-input heuristic -/

/-- The detection condition as the spec words it: the stripped text starts
with the command marker `!`, or contains `%`, or contains a geometry marker
(`* xyz` / `*xyz`, case-insensitively), and has no internal newline and
length over 120. -/
def specFlattenedDetect (s : Str) : Bool :=
  let s0 := pyStrip s
  ((toS "!").isPrefixOf s0 || s0.contains '%' ||
    (strContains (toS "* xyz") (lowerStr s0) || (toS "*xyz").isPrefixOf (lowerStr s0))) &&
  (!(s0.contains '\n') && decide (120 < s0.length))

set_option maxRecDepth 100000 in
/-- C8: `looks_like_orca_flat` is exactly the spec's detection condition, the
padded ORCA example is detected, and `reformat_orca_text` breaks it into
lines with each recognized marker (`%scf`, `end`, `* xyz`) at a line start. -/
theorem orca_flat_heuristic :
    (∀ s : Str, looks_like_orca_flat s = specFlattenedDetect s) ∧
    looks_like_orca_flat padQ = true ∧
    reformat_orca_text padQ = padQexp ∧
    pySplitlines (reformat_orca_text padQ) =
      [toS "! B3LYP", toS "def2-SVP", toS "%scf MaxIter 200", toS "end",
       toS "* xyz 0 1 " ++ List.replicate 80 'Q'] := by
  refine ⟨?_, by decide, by decide, by decide⟩
  intro s
  unfold looks_like_orca_flat specFlattenedDetect
  by_cases h : pyStrip s = [] <;> simp [h]

/-! ## C9 / C10 — the tidy rewrite loop -/

/-- Full characterisation of `process_chunks`: records written, `total`,
`changed`. -/
theorem tidyLoop_spec {α : Type} (lines : List (Option (RecJ α))) :
    (process_chunks lines).1 = (lines.filterMap id).map (fun r0 =>
        if clean_text r0.text ≠ r0.text then ⟨clean_text r0.text, r0.meta⟩ else r0) ∧
    (process_chunks lines).2.1 = lines.length ∧
    (process_chunks lines).2.2 =
      ((lines.filterMap id).filter (fun r0 => decide (clean_text r0.text ≠ r0.text))).length := by
  induction lines with
  | nil => simp [process_chunks, tidyLoop]
  | cons ln ls ih =>
      cases ln with
      | none =>
          simpa [process_chunks, tidyLoop] using ih
      | some r0 =>
          obtain ⟨h1, h2, h3⟩ := ih
          by_cases hc : clean_text r0.text = r0.text <;>
            simp [process_chunks, tidyLoop, List.filterMap_cons, hc] at h1 h2 h3 ⊢ <;>
            exact ⟨h1, h2, h3⟩

/-- C9: a line that fails JSON parsing is skipped and the loop continues —
the records written are exactly the cleaning map over the parseable lines, in
order, while `total` still counts every line; the rewrite is total for every
input. -/
theorem tidy_skip_malformed (α : Type) (lines : List (Option (RecJ α))) :
    (process_chunks lines).1 = (lines.filterMap id).map (fun r0 =>
        if clean_text r0.text ≠ r0.text then ⟨clean_text r0.text, r0.meta⟩ else r0) ∧
    (process_chunks lines).2.1 = lines.length :=
  ⟨(tidyLoop_spec lines).1, (tidyLoop_spec lines).2.1⟩

/-- Two parseable records around a malformed line. -/
def exTidyLines : List (Option (RecJ Nat)) := [some ⟨toS "ok", 0⟩, none, some ⟨toS "a  b", 1⟩]

/-- C10: malformed lines are omitted entirely — the output has exactly one
record per parseable line, in the original order, with every field other than
`text` unchanged and `text` rewritten to its cleaned form; `changed` counts
only parseable records whose text changed; on a file with a malformed line
the output is strictly shorter. -/
theorem tidy_rewrite_order (α : Type) (lines : List (Option (RecJ α))) :
    (process_chunks lines).1.map RecJ.meta = (lines.filterMap id).map RecJ.meta ∧
    (process_chunks lines).1.map RecJ.text =
      (lines.filterMap id).map (fun r0 => clean_text r0.text) ∧
    (process_chunks lines).1.length = (lines.filterMap id).length ∧
    (process_chunks lines).2.2 =
      ((lines.filterMap id).filter (fun r0 => decide (clean_text r0.text ≠ r0.text))).length ∧
    (process_chunks exTidyLines).1.length < exTidyLines.length := by
  obtain ⟨h1, _, h3⟩ := tidyLoop_spec lines
  refine ⟨?_, ?_, ?_, h3, by decide⟩
  · rw [h1, List.map_map]
    refine List.map_congr_left fun r0 _ => ?_
    by_cases hc : clean_text r0.text = r0.text <;> simp [hc]
  · rw [h1, List.map_map]
    refine List.map_congr_left fun r0 _ => ?_
    by_cases hc : clean_text r0.text = r0.text <;> simp [hc]
  · rw [h1, List.length_map]

end Cerebro
